import Mathlib

/-!
Verification of the progress-tracking item store in
`src/vue-store-sample.ts` (`useItemsStore`).

Shallow embedding: JS arrays are `List`s, nullable fields are `Option`s,
JS numbers are `Int` (ids) and `Rat` (scores and percentages), and the
store's mutable state (`modifiedItems`) is threaded explicitly.  The
`selectedItemIndex` ref is written by `findIndexOfItem` and read at once by
the mutation that called it, so it is modelled as the returned index.  A
mutation that would throw a `TypeError` in JS returns `none`.
`Number(x.toFixed(2))` is modelled as exact rational rounding to two decimal
places, half away from zero for the nonnegative values that occur here (the
ECMAScript `toFixed` rule, ignoring binary double rounding of the argument).
-/

namespace ItemStore

/-- A raw input record (`IItem` of `@/types`); the fields the store logic
touches are `itemId`, `topicKey` and `topicTitle`. -/
structure IItem where
  itemId : Int
  topicKey : String
  topicTitle : String
  deriving DecidableEq, Repr

/-- A normalized registry item (`IItemModified` of `@/types`): the raw fields
plus the three mutable ones added at load time. -/
structure IItemModified where
  itemId : Int
  topicKey : String
  topicTitle : String
  score : Option Rat
  comment : Option String
  fulfilled : Bool
  deriving DecidableEq, Repr

/-- What a call to `setCopyOfItems` produces: the new `modifiedItems` value,
plus the trace of arguments passed to the summary collaborator's
`initSummaryStore` during the call (one list entry per call, in call
order). -/
structure LoadResult where
  modifiedItems : List IItemModified
  initSummaryCalls : List (List IItemModified)
  deriving DecidableEq, Repr

/-- `setCopyOfItems` (lines 28-38): maps each payload item to a spread copy
with `score = null`, `comment = null`, `fulfilled = true`, stores the mapped
list, and calls `summaryStore.initSummaryStore(modifiedItems.value)` once,
passing the stored list itself. -/
def setCopyOfItems (payload : List IItem) : LoadResult :=
  let items := payload.map (fun item =>
    { itemId := item.itemId
      topicKey := item.topicKey
      topicTitle := item.topicTitle
      score := none
      comment := none
      fulfilled := true })
  { modifiedItems := items, initSummaryCalls := [items] }

/-- Insertion into a JS `Set`, modelled on lists: insertion order is kept and
an element already present is not added again. -/
def insertUnique (acc : List String) (x : String) : List String :=
  if x ∈ acc then acc else acc ++ [x]

/-- `itemTopicKeys` (lines 62-70):
`[...new Set(modifiedItems.map(item => item.topicKey))]`. -/
def itemTopicKeys (items : List IItemModified) : List String :=
  (items.map (fun item => item.topicKey)).foldl insertUnique []

/-- `itemTopicTitles` (lines 73-82): for a topic key, the `topicTitle` of the
first item bearing it; `find` can come up empty, hence the `Option`. -/
def itemTopicTitles (items : List IItemModified) (topicKey : String) :
    Option String :=
  (items.find? (fun item => item.topicKey = topicKey)).map
    (fun item => item.topicTitle)

/-- JS `Array.prototype.findIndex`: index of the first element satisfying the
predicate, `-1` when there is none. -/
def findIndexJs (p : IItemModified → Bool) : List IItemModified → Int
  | [] => -1
  | item :: rest =>
    if p item then 0
    else
      let r := findIndexJs p rest
      if r = -1 then -1 else r + 1

/-- `findIndexOfItem` (lines 108-112): stores
`modifiedItems.value.findIndex(item => item.itemId === itemId)` in the
`selectedItemIndex` ref; the callers below read that ref right after calling
this, so the index is modelled as the return value. -/
def findIndexOfItem (items : List IItemModified) (itemId : Int) : Int :=
  findIndexJs (fun item => item.itemId = itemId) items

/-- Replace the element at a position by the image under `f`; out-of-range
positions leave the list as it is (callers guard the range themselves). -/
def modifyAt : List IItemModified → Nat → (IItemModified → IItemModified) →
    List IItemModified
  | [], _, _ => []
  | item :: rest, 0, f => f item :: rest
  | item :: rest, n + 1, f => item :: modifyAt rest n f

/-- `updateScoreOfItem` (lines 114-117): looks the index up, then assigns
`modifiedItems.value[selectedItemIndex.value].score = score`.  When the id is
missing, `findIndex` returned `-1`, the subscript is `undefined`, and the
property write throws a `TypeError`; that outcome is `none`. -/
def updateScoreOfItem (items : List IItemModified) (score : Rat)
    (itemId : Int) : Option (List IItemModified) :=
  let index := findIndexOfItem items itemId
  if 0 ≤ index ∧ index < items.length then
    some (modifyAt items index.toNat (fun item => { item with score := some score }))
  else
    none

/-- `updateCommentOfItem` (lines 118-121): same dance for the `comment`
field. -/
def updateCommentOfItem (items : List IItemModified) (comment : String)
    (itemId : Int) : Option (List IItemModified) :=
  let index := findIndexOfItem items itemId
  if 0 ≤ index ∧ index < items.length then
    some (modifyAt items index.toNat (fun item => { item with comment := some comment }))
  else
    none

/-- `changeItemFulfilled` (lines 122-130): looks the index up and guards on
the subscripted element (`if (itemFulfilledState)`); an out-of-range
subscript is `undefined`, which is falsy, so a missing `itemId` falls through
without touching the list.  Otherwise `fulfilled` is negated and `score` set
to `null`. -/
def changeItemFulfilled (items : List IItemModified) (itemId : Int) :
    List IItemModified :=
  let index := findIndexOfItem items itemId
  if 0 ≤ index ∧ index < items.length then
    modifyAt items index.toNat (fun item =>
      { item with fulfilled := !item.fulfilled, score := none })
  else
    items

/-- `getNumberOfItemsPerTopic` (lines 133-140): a `reduce` counting the items
whose `topicKey` matches. -/
def getNumberOfItemsPerTopic (items : List IItemModified) (topicKey : String) :
    Nat :=
  items.foldl (fun acc item => if item.topicKey = topicKey then acc + 1 else acc) 0

/-- `getNumberOfAnsweredItemsPerTopic` (lines 141-153): a `reduce` counting
the matching items with `score !== null || fulfilled === false`. -/
def getNumberOfAnsweredItemsPerTopic (items : List IItemModified)
    (topicKey : String) : Nat :=
  items.foldl (fun acc item =>
    if item.topicKey = topicKey ∧ (item.score ≠ none ∨ item.fulfilled = false)
    then acc + 1 else acc) 0

/-- Rounding to two decimal places as `Number(x.toFixed(2))` does for the
nonnegative rationals occurring here: the integer `n` minimizing
`|n / 100 - x|`, the larger one on a tie. -/
def round2 (x : Rat) : Rat := (⌊x * 100 + 1 / 2⌋ : Int) / 100

/-- `getProgressPercent` (lines 154-155):
`Number(((value / total) * 100).toFixed(2))`. -/
def getProgressPercent (value total : Rat) : Rat :=
  round2 (value / total * 100)

/-- One entry of `totalProgress` (`IProgress` of `@/types`).  `topicTitle`
comes from `itemTopicTitles`, whose JS lookup can be `undefined`, hence the
`Option`. -/
structure IProgress where
  topicKey : String
  topicTitle : Option String
  widthPercentage : Rat
  progressPercent : Rat
  deriving DecidableEq, Repr

/-- `totalProgress` (lines 158-182).  The width helper `getProgress` is
imported from `@/utils/helpers`, whose code is not part of this repository;
per the spec it is a pure function of the topic count, so it is taken here as
the parameter `gp` and every theorem below holds for an arbitrary `gp`.
`progress[index]` is modelled with a default of `0` for an out-of-range
subscript; no claim depends on `widthPercentage`. -/
def totalProgress (gp : Nat → List Rat) (items : List IItemModified) :
    List IProgress :=
  let numberOfTopics := (itemTopicKeys items).length
  let progress := gp numberOfTopics
  (itemTopicKeys items).mapIdx (fun index topicKey =>
    let topicTitle := itemTopicTitles items topicKey
    let widthPercentage := progress.getD index 0
    let numberOfItemsPerTopic := getNumberOfItemsPerTopic items topicKey
    let numberOfAnsweredItemsPerTopic :=
      getNumberOfAnsweredItemsPerTopic items topicKey
    let progressPercent := getProgressPercent
      (numberOfAnsweredItemsPerTopic : Rat) (numberOfItemsPerTopic : Rat)
    { topicKey := topicKey
      topicTitle := topicTitle
      widthPercentage := widthPercentage
      progressPercent := progressPercent })

/-- `isQuizCompleted` (lines 184-188):
`totalProgress.value.every(item => item.progressPercent === 100)`. -/
def isQuizCompleted (gp : Nat → List Rat) (items : List IItemModified) : Bool :=
  (totalProgress gp items).all (fun item => item.progressPercent == 100)

/-- `resetStore` (lines 190-192): empties the registry. -/
def resetStore : List IItemModified := []

/-! ### Lemmas on `insertUnique` and `itemTopicKeys` -/

theorem mem_insertUnique (acc : List String) (x y : String) :
    y ∈ insertUnique acc x ↔ y ∈ acc ∨ y = x := by
  unfold insertUnique
  by_cases h : x ∈ acc
  · rw [if_pos h]
    constructor
    · exact Or.inl
    · rintro (hy | rfl)
      · exact hy
      · exact h
  · rw [if_neg h]
    simp [List.mem_append]

theorem nodup_insertUnique (acc : List String) (x : String) (h : acc.Nodup) :
    (insertUnique acc x).Nodup := by
  unfold insertUnique
  by_cases hx : x ∈ acc
  · rw [if_pos hx]; exact h
  · rw [if_neg hx]
    simp [List.nodup_append, h, hx]

theorem mem_foldl_insertUnique (l : List String) :
    ∀ (acc : List String) (y : String),
      y ∈ l.foldl insertUnique acc ↔ y ∈ acc ∨ y ∈ l := by
  induction l with
  | nil => simp
  | cons x xs ih =>
    intro acc y
    rw [List.foldl_cons, ih, mem_insertUnique, List.mem_cons]
    tauto

theorem nodup_foldl_insertUnique (l : List String) :
    ∀ acc : List String, acc.Nodup → (l.foldl insertUnique acc).Nodup := by
  induction l with
  | nil => intro acc h; exact h
  | cons x xs ih => intro acc h; exact ih _ (nodup_insertUnique _ _ h)

theorem pairwise_foldl_insertUnique (M : List String) :
    ∀ (l₂ l₁ acc : List String), M = l₁ ++ l₂ →
      (∀ a, a ∈ acc ↔ a ∈ l₁) →
      acc.Pairwise (fun a b => M.indexOf a < M.indexOf b) →
      (l₂.foldl insertUnique acc).Pairwise
        (fun a b => M.indexOf a < M.indexOf b) := by
  intro l₂
  induction l₂ with
  | nil => intro l₁ acc hM hmem hpw; exact hpw
  | cons x xs ih =>
    intro l₁ acc hM hmem hpw
    rw [List.foldl_cons]
    apply ih (l₁ ++ [x])
    · rw [hM, List.append_assoc]; rfl
    · intro a
      rw [mem_insertUnique, hmem]
      simp [List.mem_append]
    · unfold insertUnique
      by_cases hx : x ∈ acc
      · rw [if_pos hx]; exact hpw
      · rw [if_neg hx]
        rw [List.pairwise_append]
        refine ⟨hpw, List.pairwise_singleton _ _, ?_⟩
        intro a ha b hb
        rw [List.mem_singleton] at hb
        have haL : a ∈ l₁ := (hmem a).mp ha
        have hxL : x ∉ l₁ := fun hc => hx ((hmem x).mpr hc)
        have hax : M.indexOf a < M.indexOf x := by
          rw [hM, List.indexOf_append_of_mem haL,
            List.indexOf_append_of_not_mem hxL]
          exact Nat.lt_of_lt_of_le (List.indexOf_lt_length.mpr haL)
            (Nat.le_add_right _ _)
        simpa [hb] using hax

theorem mem_itemTopicKeys (items : List IItemModified) (k : String) :
    k ∈ itemTopicKeys items ↔ ∃ item ∈ items, item.topicKey = k := by
  unfold itemTopicKeys
  rw [mem_foldl_insertUnique]
  simp [List.mem_map, eq_comm]

theorem nodup_itemTopicKeys (items : List IItemModified) :
    (itemTopicKeys items).Nodup :=
  nodup_foldl_insertUnique _ _ List.nodup_nil

/-! ### Lemmas on the counting folds -/

theorem foldl_count_eq (p : IItemModified → Prop) [DecidablePred p] :
    ∀ (l : List IItemModified) (acc : Nat),
      l.foldl (fun a item => if p item then a + 1 else a) acc
        = acc + l.countP (fun item => decide (p item)) := by
  intro l
  induction l with
  | nil => intro acc; simp
  | cons x xs ih =>
    intro acc
    rw [List.foldl_cons, ih, List.countP_cons]
    by_cases hx : p x
    · simp [hx]; omega
    · simp [hx]

theorem getNumberOfItemsPerTopic_eq (items : List IItemModified) (k : String) :
    getNumberOfItemsPerTopic items k
      = items.countP (fun item => decide (item.topicKey = k)) := by
  simpa using foldl_count_eq (fun item => item.topicKey = k) items 0

theorem getNumberOfAnsweredItemsPerTopic_eq (items : List IItemModified)
    (k : String) :
    getNumberOfAnsweredItemsPerTopic items k
      = items.countP (fun item =>
          decide (item.topicKey = k ∧ (item.score ≠ none ∨ item.fulfilled = false))) := by
  simpa using foldl_count_eq
    (fun item => item.topicKey = k ∧ (item.score ≠ none ∨ item.fulfilled = false))
    items 0

theorem getNumberOfItemsPerTopic_pos (items : List IItemModified) (k : String)
    (h : k ∈ itemTopicKeys items) : 0 < getNumberOfItemsPerTopic items k := by
  rw [getNumberOfItemsPerTopic_eq, List.countP_pos_iff]
  obtain ⟨item, hmem, hk⟩ := (mem_itemTopicKeys items k).mp h
  exact ⟨item, hmem, by simp [hk]⟩

theorem answered_le_count (items : List IItemModified) (k : String) :
    getNumberOfAnsweredItemsPerTopic items k ≤ getNumberOfItemsPerTopic items k := by
  rw [getNumberOfItemsPerTopic_eq, getNumberOfAnsweredItemsPerTopic_eq]
  apply List.countP_mono_left
  intro item _ hp
  simp only [decide_eq_true_eq] at hp ⊢
  exact hp.1

/-! ### Summing per-topic counts -/

theorem sum_map_add {α : Type} (l : List α) (f g : α → Nat) :
    (l.map (fun a => f a + g a)).sum = (l.map f).sum + (l.map g).sum := by
  induction l with
  | nil => rfl
  | cons x xs ih => simp [ih]; omega

theorem sum_indicator_zero (x : String) :
    ∀ ks : List String, x ∉ ks →
      (ks.map (fun k => if x = k then 1 else 0)).sum = 0 := by
  intro ks
  induction ks with
  | nil => intro _; rfl
  | cons k₀ rest ih =>
    intro hx
    have hne : x ≠ k₀ := fun hc => hx (by simp [hc])
    have hrest : x ∉ rest := fun hc => hx (by simp [hc])
    simp [hne, ih hrest]

theorem sum_indicator_one (x : String) :
    ∀ ks : List String, ks.Nodup → x ∈ ks →
      (ks.map (fun k => if x = k then 1 else 0)).sum = 1 := by
  intro ks
  induction ks with
  | nil => intro _ h; cases h
  | cons k₀ rest ih =>
    intro hnd hx
    rw [List.nodup_cons] at hnd
    rcases List.mem_cons.mp hx with h | h
    · have hk₀ : k₀ ∉ rest := hnd.1
      simp [h, sum_indicator_zero k₀ rest hk₀]
    · have hne : x ≠ k₀ := fun hc => hnd.1 (hc ▸ h)
      simp [hne, ih hnd.2 h]

theorem sum_countP_eq_length (ks : List String) (hnd : ks.Nodup) :
    ∀ items : List IItemModified, (∀ item ∈ items, item.topicKey ∈ ks) →
      (ks.map (fun k =>
        items.countP (fun item => decide (item.topicKey = k)))).sum
        = items.length := by
  intro items
  induction items with
  | nil =>
    intro _
    apply List.sum_eq_zero
    intro n hn
    obtain ⟨k, _, hk⟩ := List.mem_map.mp hn
    simp at hk
    omega
  | cons x xs ih =>
    intro hcov
    have hxk : x.topicKey ∈ ks := hcov x (by simp)
    have hxs : ∀ item ∈ xs, item.topicKey ∈ ks :=
      fun item h => hcov item (by simp [h])
    have hstep : ∀ k : String,
        (x :: xs).countP (fun item => decide (item.topicKey = k))
          = xs.countP (fun item => decide (item.topicKey = k))
            + (if x.topicKey = k then 1 else 0) := by
      intro k
      rw [List.countP_cons]
      by_cases h : x.topicKey = k <;> simp [h]
    simp only [hstep]
    rw [sum_map_add, ih hxs, sum_indicator_one x.topicKey ks hnd hxk]
    simp

/-! ### The first-match index and positional update -/

theorem findIndexJs_eq_neg_one (p : IItemModified → Bool)
    (l : List IItemModified) (h : ∀ item ∈ l, p item = false) :
    findIndexJs p l = -1 := by
  induction l with
  | nil => rfl
  | cons x xs ih =>
    have hx := h x (by simp)
    have hxs : ∀ item ∈ xs, p item = false := fun it hi => h it (by simp [hi])
    simp [findIndexJs, hx, ih hxs]

theorem findIndexJs_found (p : IItemModified → Bool) :
    ∀ l : List IItemModified, (∃ item ∈ l, p item = true) →
      ∃ n : Nat, findIndexJs p l = (n : Int) ∧
        ∃ hn : n < l.length, p (l.get ⟨n, hn⟩) = true ∧
          ∀ j : Nat, ∀ hj : j < n, p (l.get ⟨j, Nat.lt_trans hj hn⟩) = false := by
  intro l
  induction l with
  | nil => rintro ⟨item, h, _⟩; cases h
  | cons x xs ih =>
    intro h
    by_cases hpx : p x = true
    · refine ⟨0, by simp [findIndexJs, hpx], Nat.succ_pos _, hpx, ?_⟩
      intro j hj
      omega
    · have hpx' : p x = false := by simpa using hpx
      have hxs : ∃ item ∈ xs, p item = true := by
        obtain ⟨item, hmem, hp⟩ := h
        rcases List.mem_cons.mp hmem with rfl | hmem'
        · exact absurd hp hpx
        · exact ⟨item, hmem', hp⟩
      obtain ⟨n, hfi, hn, hpn, hbef⟩ := ih hxs
      have hne : (n : Int) ≠ -1 := by omega
      refine ⟨n + 1, ?_, Nat.succ_lt_succ hn, hpn, ?_⟩
      · simp only [findIndexJs, hpx', Bool.false_eq_true, if_false, hfi,
          if_neg hne]
        push_cast
        ring
      · intro j hj
        cases j with
        | zero => exact hpx'
        | succ m => exact hbef m (Nat.lt_of_succ_lt_succ hj)

theorem length_modifyAt (f : IItemModified → IItemModified) :
    ∀ (l : List IItemModified) (n : Nat), (modifyAt l n f).length = l.length := by
  intro l
  induction l with
  | nil => intro n; rfl
  | cons x xs ih =>
    intro n
    cases n with
    | zero => rfl
    | succ m => simp [modifyAt, ih]

theorem modifyAt_eq_set (f : IItemModified → IItemModified) :
    ∀ (l : List IItemModified) (n : Nat) (hn : n < l.length),
      modifyAt l n f = l.set n (f (l.get ⟨n, hn⟩)) := by
  intro l
  induction l with
  | nil => intro n hn; cases hn
  | cons x xs ih =>
    intro n hn
    cases n with
    | zero => rfl
    | succ m =>
      have hm : m < xs.length := Nat.lt_of_succ_lt_succ hn
      simp [modifyAt, List.set, ih m hm]

/-! ### The rounded percentage -/

theorem getProgressPercent_eq_100_iff (a t : Nat) (ht : 0 < t) :
    getProgressPercent (a : Rat) (t : Rat) = 100 ↔
      19999 * t ≤ 20000 * a ∧ 20000 * a < 20001 * t := by
  have ht' : (0 : Rat) < (t : Rat) := by exact_mod_cast ht
  have htne : (t : Rat) ≠ 0 := ne_of_gt ht'
  unfold getProgressPercent round2
  rw [div_eq_iff (by norm_num : (100 : Rat) ≠ 0)]
  rw [show (100 : Rat) * 100 = ((10000 : Int) : Rat) by norm_num]
  rw [Int.cast_inj]
  rw [Int.floor_eq_iff]
  have harg : (a : Rat) / t * 100 * 100 + 1 / 2 = (20000 * a + t) / (2 * t) := by
    field_simp
    ring
  rw [harg]
  have h2t : (0 : Rat) < 2 * t := by linarith
  rw [le_div_iff₀ h2t, div_lt_iff₀ h2t]
  constructor
  · rintro ⟨h2, h3⟩
    constructor
    · have : (19999 : Rat) * t ≤ 20000 * a := by push_cast at h2 ⊢; linarith
      exact_mod_cast this
    · have : (20000 : Rat) * a < 20001 * t := by push_cast at h3 ⊢; linarith
      exact_mod_cast this
  · rintro ⟨h2, h3⟩
    have h2' : (19999 : Rat) * t ≤ 20000 * a := by exact_mod_cast h2
    have h3' : (20000 : Rat) * a < 20001 * t := by exact_mod_cast h3
    constructor
    · push_cast
      linarith
    · push_cast
      linarith

theorem getProgressPercent_all_answered (t : Nat) (ht : 0 < t) :
    getProgressPercent (t : Rat) (t : Rat) = 100 := by
  rw [getProgressPercent_eq_100_iff t t ht]
  omega

/-! ### `totalProgress` and `isQuizCompleted` through the topic keys -/

theorem mapIdx_map_progressPercent :
    ∀ (ks : List String) (f : Nat → String → IProgress) (g : String → Rat),
      (∀ i k, (f i k).progressPercent = g k) →
      (ks.mapIdx f).map (fun q => q.progressPercent) = ks.map g := by
  intro ks
  induction ks with
  | nil => intro f g h; rfl
  | cons x xs ih =>
    intro f g h
    rw [List.mapIdx_cons, List.map_cons, List.map_cons, h]
    rw [ih (fun i => f (i + 1)) g (fun i k => h (i + 1) k)]

theorem totalProgress_map_percent (gp : Nat → List Rat)
    (items : List IItemModified) :
    (totalProgress gp items).map (fun q => q.progressPercent)
      = (itemTopicKeys items).map (fun k =>
          getProgressPercent (getNumberOfAnsweredItemsPerTopic items k : Rat)
            (getNumberOfItemsPerTopic items k : Rat)) := by
  unfold totalProgress
  exact mapIdx_map_progressPercent _ _ _ (fun i k => rfl)

theorem isQuizCompleted_iff (gp : Nat → List Rat) (items : List IItemModified) :
    isQuizCompleted gp items = true ↔
      ∀ k ∈ itemTopicKeys items,
        getProgressPercent (getNumberOfAnsweredItemsPerTopic items k : Rat)
          (getNumberOfItemsPerTopic items k : Rat) = 100 := by
  unfold isQuizCompleted
  rw [List.all_eq_true]
  constructor
  · intro h k hk
    have hmem : getProgressPercent
        (getNumberOfAnsweredItemsPerTopic items k : Rat)
        (getNumberOfItemsPerTopic items k : Rat)
        ∈ (totalProgress gp items).map (fun q => q.progressPercent) := by
      rw [totalProgress_map_percent]
      exact List.mem_map_of_mem _ hk
    obtain ⟨q, hq, hqe⟩ := List.mem_map.mp hmem
    have := h q hq
    rw [beq_iff_eq] at this
    rw [← hqe]
    exact this
  · intro h q hq
    rw [beq_iff_eq]
    have hmem : q.progressPercent
        ∈ (totalProgress gp items).map (fun r => r.progressPercent) :=
      List.mem_map_of_mem _ hq
    rw [totalProgress_map_percent] at hmem
    obtain ⟨k, hk, hke⟩ := List.mem_map.mp hmem
    rw [← hke]
    exact h k hk

/-! ### Counting equalities used for the completion analysis -/

theorem answered_of_counts_eq (items : List IItemModified) (k : String)
    (heq : getNumberOfAnsweredItemsPerTopic items k
      = getNumberOfItemsPerTopic items k) :
    ∀ item ∈ items, item.topicKey = k →
      (item.score ≠ none ∨ item.fulfilled = false) := by
  intro item hmem hk
  rw [getNumberOfItemsPerTopic_eq, getNumberOfAnsweredItemsPerTopic_eq] at heq
  have hsplit : items.countP (fun it =>
      decide (it.topicKey = k ∧ (it.score ≠ none ∨ it.fulfilled = false)))
      = (items.filter (fun it => decide (it.topicKey = k))).countP
          (fun it => decide (it.score ≠ none ∨ it.fulfilled = false)) := by
    rw [List.countP_filter]
    apply List.countP_congr
    intro x _
    simp only [Bool.and_eq_true, decide_eq_true_eq]
    tauto
  have heq2 : (items.filter (fun it => decide (it.topicKey = k))).countP
      (fun it => decide (it.score ≠ none ∨ it.fulfilled = false))
      = (items.filter (fun it => decide (it.topicKey = k))).length := by
    rw [← hsplit, heq, List.countP_eq_length_filter]
  have hall := List.countP_eq_length.mp heq2
  have hmemf : item ∈ items.filter (fun it => decide (it.topicKey = k)) :=
    List.mem_filter.mpr ⟨hmem, by simp [hk]⟩
  have := hall item hmemf
  simpa using this

/-- C2, amended: `isQuizCompleted` is true whenever every item has a present
score or `fulfilled = false` (vacuously on the empty registry); the converse
— completion only when every item is answered — holds provided each topic
has fewer than 20000 items.  In general `isQuizCompleted` is true exactly
when every topic's rounded `progressPercent` equals 100, and the rounding of
`(answered/total)*100` to two decimals reaches 100 already at
`answered/total ≥ 0.99995` (see the counterexample). -/
theorem isQuizCompleted_amended (gp : Nat → List Rat)
    (items : List IItemModified) :
    ((∀ item ∈ items, item.score ≠ none ∨ item.fulfilled = false) →
        isQuizCompleted gp items = true) ∧
      ((∀ k ∈ itemTopicKeys items, getNumberOfItemsPerTopic items k < 20000) →
        (isQuizCompleted gp items = true ↔
          ∀ item ∈ items, item.score ≠ none ∨ item.fulfilled = false)) := by
  have himp : (∀ item ∈ items, item.score ≠ none ∨ item.fulfilled = false) →
      isQuizCompleted gp items = true := by
    intro h
    rw [isQuizCompleted_iff]
    intro k hk
    have hpos := getNumberOfItemsPerTopic_pos items k hk
    have heq : getNumberOfAnsweredItemsPerTopic items k
        = getNumberOfItemsPerTopic items k := by
      rw [getNumberOfItemsPerTopic_eq, getNumberOfAnsweredItemsPerTopic_eq]
      apply List.countP_congr
      intro x hx
      have hvx := h x hx
      simp only [decide_eq_true_eq]
      constructor
      · exact fun hand => hand.1
      · exact fun hmatch => ⟨hmatch, hvx⟩
    rw [heq]
    exact getProgressPercent_all_answered _ hpos
  refine ⟨himp, fun hsmall => ⟨?_, himp⟩⟩
  intro hc item hmem
  have hk : item.topicKey ∈ itemTopicKeys items :=
    (mem_itemTopicKeys items item.topicKey).mpr ⟨item, hmem, rfl⟩
  have hpos := getNumberOfItemsPerTopic_pos items item.topicKey hk
  have h100 := (isQuizCompleted_iff gp items).mp hc item.topicKey hk
  rw [getProgressPercent_eq_100_iff _ _ hpos] at h100
  have hle := answered_le_count items item.topicKey
  have hlt := hsmall item.topicKey hk
  have heq : getNumberOfAnsweredItemsPerTopic items item.topicKey
      = getNumberOfItemsPerTopic items item.topicKey := by omega
  exact answered_of_counts_eq items item.topicKey heq item hmem rfl

/-! ### Replicated registries (for the large-topic rounding boundary) -/

theorem foldl_insertUnique_replicate (k : String) :
    ∀ (n : Nat) (acc : List String), k ∈ acc →
      (List.replicate n k).foldl insertUnique acc = acc := by
  intro n
  induction n with
  | zero => intro acc _; rfl
  | succ m ih =>
    intro acc h
    rw [List.replicate_succ, List.foldl_cons]
    rw [show insertUnique acc k = acc from if_pos h]
    exact ih acc h

theorem countP_replicate (p : IItemModified → Bool) (x : IItemModified) :
    ∀ n : Nat, (List.replicate n x).countP p = if p x then n else 0 := by
  intro n
  induction n with
  | zero => simp
  | succ m ih =>
    rw [List.replicate_succ, List.countP_cons, ih]
    by_cases h : p x <;> simp [h]

/-- An answered item of topic `"A"`, used in the `C2` counterexample. -/
def ansItemA : IItemModified :=
  { itemId := 1, topicKey := "A", topicTitle := "TA"
    score := some 1, comment := none, fulfilled := true }

/-- An unanswered, fulfilled item of topic `"A"`. -/
def openItemA : IItemModified :=
  { itemId := 2, topicKey := "A", topicTitle := "TA"
    score := none, comment := none, fulfilled := true }

/-- 19999 answered items plus one unanswered one, all in one topic: the
rounded progress percent is `round2(99.995) = 100` although one item is
still open. -/
def ceItems : List IItemModified := List.replicate 19999 ansItemA ++ [openItemA]

theorem itemTopicKeys_ceItems : itemTopicKeys ceItems = ["A"] := by
  unfold ceItems itemTopicKeys
  rw [List.map_append, List.map_replicate, List.foldl_append]
  have h1 : (List.replicate 19999 (ansItemA.topicKey)).foldl insertUnique []
      = ["A"] := by
    rw [show (19999 : Nat) = 19998 + 1 from rfl, List.replicate_succ,
      List.foldl_cons]
    rw [show insertUnique [] ansItemA.topicKey = ["A"] from rfl]
    exact foldl_insertUnique_replicate _ 19998 ["A"] (by simp [ansItemA])
  rw [h1]
  rfl

theorem counts_ceItems :
    getNumberOfItemsPerTopic ceItems "A" = 20000 ∧
      getNumberOfAnsweredItemsPerTopic ceItems "A" = 19999 := by
  constructor
  · rw [getNumberOfItemsPerTopic_eq]
    unfold ceItems
    rw [List.countP_append, countP_replicate]
    rfl
  · rw [getNumberOfAnsweredItemsPerTopic_eq]
    unfold ceItems
    rw [List.countP_append, countP_replicate]
    rfl

theorem percent_ce : getProgressPercent ((19999 : Nat) : Rat) ((20000 : Nat) : Rat) = 100 := by
  rw [getProgressPercent_eq_100_iff 19999 20000 (by norm_num)]
  omega

/-- C2, counterexample: on a single-topic registry of 19999 scored items and
one unscored, fulfilled item, `isQuizCompleted` is true (the topic's percent
is `round2(19999/20000 * 100) = round2(99.995) = 100`) although not every
item has a present score or `fulfilled = false` — refuting the claimed
equivalence. -/
theorem isQuizCompleted_overcount_ce :
    isQuizCompleted (fun n => List.replicate n 0) ceItems = true ∧
      ¬ (∀ item ∈ ceItems, item.score ≠ none ∨ item.fulfilled = false) := by
  constructor
  · rw [isQuizCompleted_iff]
    intro k hk
    rw [itemTopicKeys_ceItems] at hk
    rw [List.mem_singleton] at hk
    subst hk
    rw [counts_ceItems.1, counts_ceItems.2]
    exact percent_ce
  · intro h
    have hmem : openItemA ∈ ceItems := by
      unfold ceItems
      exact List.mem_append_right _ (by simp)
    have := h openItemA hmem
    simp [openItemA] at this

/-! ### Locating an item by id -/

theorem findIndexOfItem_found (items : List IItemModified) (itemId : Int)
    (h : ∃ item ∈ items, item.itemId = itemId) :
    ∃ n : Nat, findIndexOfItem items itemId = (n : Int) ∧
      ∃ hn : n < items.length, (items.get ⟨n, hn⟩).itemId = itemId ∧
        ∀ j : Nat, ∀ hj : j < n,
          (items.get ⟨j, Nat.lt_trans hj hn⟩).itemId ≠ itemId := by
  obtain ⟨item, hmem, hid⟩ := h
  have hp : (fun it => decide (it.itemId = itemId)) item = true := by
    simp [hid]
  obtain ⟨n, hfi, hn, hpn, hbef⟩ :=
    findIndexJs_found (fun it => decide (it.itemId = itemId)) items
      ⟨item, hmem, hp⟩
  refine ⟨n, hfi, hn, by simpa using hpn, ?_⟩
  intro j hj
  have := hbef j hj
  simpa using this

theorem findIndexOfItem_absent (items : List IItemModified) (itemId : Int)
    (h : ∀ item ∈ items, item.itemId ≠ itemId) :
    findIndexOfItem items itemId = -1 := by
  apply findIndexJs_eq_neg_one
  intro item hmem
  simp [h item hmem]

/-- A sample registry item used as witness input. -/
def sampleItem : IItemModified :=
  { itemId := 1, topicKey := "A", topicTitle := "TA"
    score := none, comment := none, fulfilled := true }

/-- A second sample item, scored, in another topic. -/
def sampleScored : IItemModified :=
  { itemId := 2, topicKey := "B", topicTitle := "TB"
    score := some 3, comment := none, fulfilled := true }

/-! ### The claims -/

/-- C1, counterexample: on the empty registry (where no `itemId` is present),
`updateScoreOfItem` does not return the registry unchanged without error, as
the claim's silent no-op would; it reaches the `TypeError` outcome
(`modifiedItems.value[-1]` is `undefined` and the `.score` write throws). -/
theorem updateScoreOfItem_silent_noop_ce :
    updateScoreOfItem [] 5 7 = none ∧
      updateScoreOfItem [] 5 7 ≠ some [] := by
  decide

/-- C1, amended: for every registry state and every `itemId` not present in
it, `updateScoreOfItem` signals an error (the `TypeError` outcome, `none`)
instead of silently doing nothing; the registry contents are not modified by
the failed call, but the failure is not silent. -/
theorem updateScoreOfItem_absent (items : List IItemModified) (score : Rat)
    (itemId : Int) (h : ∀ item ∈ items, item.itemId ≠ itemId) :
    updateScoreOfItem items score itemId = none := by
  have hguard : ¬((0 : Int) ≤ -1 ∧ (-1 : Int) < (items.length : Int)) := by
    omega
  unfold updateScoreOfItem
  rw [findIndexOfItem_absent items itemId h, if_neg hguard]

/-- C1, witness: the amended statement at a concrete input. -/
theorem updateScoreOfItem_absent_witness :
    updateScoreOfItem [sampleItem] 5 7 = none :=
  updateScoreOfItem_absent [sampleItem] 5 7 (by decide)

/-- C10: for every registry state and every `itemId` not present in it,
`changeItemFulfilled` leaves the registry exactly as it was (the guard on the
looked-up element makes the missing-id case a no-op), while the unguarded
score and comment mutations instead reach the `TypeError` outcome. -/
theorem changeItemFulfilled_absent_noop (items : List IItemModified)
    (score : Rat) (comment : String) (itemId : Int)
    (h : ∀ item ∈ items, item.itemId ≠ itemId) :
    changeItemFulfilled items itemId = items ∧
      updateScoreOfItem items score itemId = none ∧
      updateCommentOfItem items comment itemId = none := by
  have hfi := findIndexOfItem_absent items itemId h
  have hguard : ¬((0 : Int) ≤ -1 ∧ (-1 : Int) < (items.length : Int)) := by
    omega
  refine ⟨?_, ?_, ?_⟩
  · unfold changeItemFulfilled
    rw [hfi, if_neg hguard]
  · unfold updateScoreOfItem
    rw [hfi, if_neg hguard]
  · unfold updateCommentOfItem
    rw [hfi, if_neg hguard]

/-- C10, witness: the statement at a concrete input. -/
theorem changeItemFulfilled_absent_noop_witness :
    changeItemFulfilled [sampleScored] 42 = [sampleScored] ∧
      updateScoreOfItem [sampleScored] 5 42 = none ∧
      updateCommentOfItem [sampleScored] "note" 42 = none :=
  changeItemFulfilled_absent_noop [sampleScored] 5 "note" 42 (by decide)

/-- C4: for every registry state and every `itemId` present in it,
`changeItemFulfilled` rewrites the first matching item to a copy whose
`fulfilled` flag is negated and whose `score` is absent, whatever the prior
values were, and touches nothing else; in particular the item's score is
always absent afterwards. -/
theorem changeItemFulfilled_present (items : List IItemModified) (itemId : Int)
    (h : ∃ item ∈ items, item.itemId = itemId) :
    ∃ n : Nat, ∃ hn : n < items.length,
      (items.get ⟨n, hn⟩).itemId = itemId ∧
      (∀ j : Nat, ∀ hj : j < n,
        (items.get ⟨j, Nat.lt_trans hj hn⟩).itemId ≠ itemId) ∧
      changeItemFulfilled items itemId
        = items.set n { items.get ⟨n, hn⟩ with
            fulfilled := !(items.get ⟨n, hn⟩).fulfilled, score := none } := by
  obtain ⟨n, hfi, hn, hid, hbef⟩ := findIndexOfItem_found items itemId h
  refine ⟨n, hn, hid, hbef, ?_⟩
  have hguard : (0 : Int) ≤ (n : Int) ∧ (n : Int) < (items.length : Int) := by
    omega
  unfold changeItemFulfilled
  rw [hfi, if_pos hguard, Int.toNat_ofNat]
  exact modifyAt_eq_set _ items n hn

/-- C4, witness: the statement at a concrete input. -/
theorem changeItemFulfilled_present_witness :
    ∃ n : Nat, ∃ hn : n < [sampleItem].length,
      ([sampleItem].get ⟨n, hn⟩).itemId = 1 ∧
      (∀ j : Nat, ∀ hj : j < n,
        ([sampleItem].get ⟨j, Nat.lt_trans hj hn⟩).itemId ≠ 1) ∧
      changeItemFulfilled [sampleItem] 1
        = [sampleItem].set n { [sampleItem].get ⟨n, hn⟩ with
            fulfilled := !([sampleItem].get ⟨n, hn⟩).fulfilled,
            score := none } :=
  changeItemFulfilled_present [sampleItem] 1 (by decide)

/-- C8: for every registry state and every `itemId` present in it,
`updateScoreOfItem` replaces the first matching item by a copy differing only
in `score` (`fulfilled`, `comment` and the raw fields are carried over
unchanged, and every other position of the list is untouched), and
`updateCommentOfItem` likewise replaces only the `comment` field. -/
theorem updateScore_updateComment_frame (items : List IItemModified)
    (score : Rat) (comment : String) (itemId : Int)
    (h : ∃ item ∈ items, item.itemId = itemId) :
    ∃ n : Nat, ∃ hn : n < items.length,
      (items.get ⟨n, hn⟩).itemId = itemId ∧
      (∀ j : Nat, ∀ hj : j < n,
        (items.get ⟨j, Nat.lt_trans hj hn⟩).itemId ≠ itemId) ∧
      updateScoreOfItem items score itemId
        = some (items.set n { items.get ⟨n, hn⟩ with score := some score }) ∧
      updateCommentOfItem items comment itemId
        = some (items.set n
            { items.get ⟨n, hn⟩ with comment := some comment }) := by
  obtain ⟨n, hfi, hn, hid, hbef⟩ := findIndexOfItem_found items itemId h
  refine ⟨n, hn, hid, hbef, ?_, ?_⟩
  · have hguard : (0 : Int) ≤ (n : Int) ∧ (n : Int) < (items.length : Int) := by
      omega
    unfold updateScoreOfItem
    rw [hfi, if_pos hguard, Int.toNat_ofNat,
      modifyAt_eq_set (fun item => { item with score := some score }) items n hn]
  · have hguard : (0 : Int) ≤ (n : Int) ∧ (n : Int) < (items.length : Int) := by
      omega
    unfold updateCommentOfItem
    rw [hfi, if_pos hguard, Int.toNat_ofNat,
      modifyAt_eq_set (fun item => { item with comment := some comment })
        items n hn]

/-- C8, witness: the statement at a concrete input. -/
theorem updateScore_updateComment_frame_witness :
    ∃ n : Nat, ∃ hn : n < [sampleItem].length,
      ([sampleItem].get ⟨n, hn⟩).itemId = 1 ∧
      (∀ j : Nat, ∀ hj : j < n,
        ([sampleItem].get ⟨j, Nat.lt_trans hj hn⟩).itemId ≠ 1) ∧
      updateScoreOfItem [sampleItem] 5 1
        = some ([sampleItem].set n
            { [sampleItem].get ⟨n, hn⟩ with score := some (5 : Rat) }) ∧
      updateCommentOfItem [sampleItem] "done" 1
        = some ([sampleItem].set n
            { [sampleItem].get ⟨n, hn⟩ with comment := some "done" }) :=
  updateScore_updateComment_frame [sampleItem] 5 "done" 1 (by decide)

/-- C3: after a load, `itemTopicKeys` holds each distinct `topicKey` of the
payload exactly once (it is duplicate-free and its membership coincides with
the payload's keys), ordered by the position of each key's first occurrence
in the payload — no sorting. -/
theorem itemTopicKeys_first_occurrence (payload : List IItem) :
    (itemTopicKeys (setCopyOfItems payload).modifiedItems).Nodup ∧
      (∀ k, k ∈ itemTopicKeys (setCopyOfItems payload).modifiedItems ↔
        k ∈ payload.map (fun item => item.topicKey)) ∧
      (itemTopicKeys (setCopyOfItems payload).modifiedItems).Pairwise
        (fun a b => (payload.map (fun item => item.topicKey)).indexOf a
          < (payload.map (fun item => item.topicKey)).indexOf b) := by
  have hkeys : (setCopyOfItems payload).modifiedItems.map
      (fun item => item.topicKey) = payload.map (fun item => item.topicKey) := by
    simp [setCopyOfItems, List.map_map]
  refine ⟨nodup_itemTopicKeys _, ?_, ?_⟩
  · intro k
    unfold itemTopicKeys
    rw [hkeys, mem_foldl_insertUnique]
    simp
  · unfold itemTopicKeys
    rw [hkeys]
    apply pairwise_foldl_insertUnique _ _ [] []
    · rfl
    · intro a
      simp
    · exact List.Pairwise.nil

/-- C5: `setCopyOfItems` replaces the registry with one normalized copy per
payload element, in payload order — each copy keeps the raw fields and gets
`score = none`, `comment = none`, `fulfilled = true` — and calls
`initSummaryStore` exactly once, its argument being the stored normalized
list itself (in this value-level embedding, the very list the registry
holds). -/
theorem setCopyOfItems_spec (payload : List IItem) :
    (setCopyOfItems payload).modifiedItems.length = payload.length ∧
      (∀ i : Fin payload.length,
        ∃ hi : (i : Nat) < (setCopyOfItems payload).modifiedItems.length,
          ((setCopyOfItems payload).modifiedItems.get ⟨i, hi⟩).itemId
              = (payload.get i).itemId ∧
            ((setCopyOfItems payload).modifiedItems.get ⟨i, hi⟩).topicKey
              = (payload.get i).topicKey ∧
            ((setCopyOfItems payload).modifiedItems.get ⟨i, hi⟩).topicTitle
              = (payload.get i).topicTitle ∧
            ((setCopyOfItems payload).modifiedItems.get ⟨i, hi⟩).score = none ∧
            ((setCopyOfItems payload).modifiedItems.get ⟨i, hi⟩).comment
              = none ∧
            ((setCopyOfItems payload).modifiedItems.get ⟨i, hi⟩).fulfilled
              = true) ∧
      (setCopyOfItems payload).initSummaryCalls
        = [(setCopyOfItems payload).modifiedItems] := by
  refine ⟨by simp [setCopyOfItems], ?_, rfl⟩
  intro i
  have hi : (i : Nat) < (setCopyOfItems payload).modifiedItems.length := by
    simp [setCopyOfItems]
  refine ⟨hi, ?_⟩
  simp [setCopyOfItems, List.get_map]

/-- C6: the per-topic counts summed over the topic keys give exactly the
total number of items in the registry. -/
theorem sum_counts_eq_total (items : List IItemModified) :
    ((itemTopicKeys items).map (fun k => getNumberOfItemsPerTopic items k)).sum
      = items.length := by
  have hnd := nodup_itemTopicKeys items
  have hcov : ∀ item ∈ items, item.topicKey ∈ itemTopicKeys items := by
    intro item hmem
    exact (mem_itemTopicKeys items item.topicKey).mpr ⟨item, hmem, rfl⟩
  simp only [getNumberOfItemsPerTopic_eq]
  exact sum_countP_eq_length _ hnd items hcov

/-- C7: `getNumberOfAnsweredItemsPerTopic` returns exactly the number of
items whose `topicKey` equals the given key and whose score is present or
whose `fulfilled` flag is false — so an unscored item with
`fulfilled = false` counts as answered. -/
theorem getNumberOfAnsweredItemsPerTopic_spec (items : List IItemModified)
    (k : String) :
    getNumberOfAnsweredItemsPerTopic items k
      = (items.filter (fun item =>
          decide (item.topicKey = k ∧
            (item.score ≠ none ∨ item.fulfilled = false)))).length := by
  rw [getNumberOfAnsweredItemsPerTopic_eq, List.countP_eq_length_filter]

/-- C9: every per-topic total that `totalProgress` feeds to
`getProgressPercent` is strictly positive — each key it iterates over comes
from the items themselves, so its count is at least one and the
division-by-zero precondition of `getProgressPercent` cannot be violated
from the query surface. -/
theorem totalProgress_total_pos (gp : Nat → List Rat)
    (items : List IItemModified) :
    (∀ k ∈ itemTopicKeys items, 0 < getNumberOfItemsPerTopic items k) ∧
      ∀ q ∈ totalProgress gp items, ∃ k ∈ itemTopicKeys items,
        0 < getNumberOfItemsPerTopic items k ∧
          q.progressPercent = getProgressPercent
            (getNumberOfAnsweredItemsPerTopic items k : Rat)
            (getNumberOfItemsPerTopic items k : Rat) := by
  refine ⟨fun k hk => getNumberOfItemsPerTopic_pos items k hk, ?_⟩
  intro q hq
  have hmem : q.progressPercent
      ∈ (totalProgress gp items).map (fun r => r.progressPercent) :=
    List.mem_map_of_mem _ hq
  rw [totalProgress_map_percent] at hmem
  obtain ⟨k, hk, hke⟩ := List.mem_map.mp hmem
  exact ⟨k, hk, getNumberOfItemsPerTopic_pos items k hk, hke.symm⟩

end ItemStore
